import Mathlib

/-!
Verification of the `dpeterka/slack-history` bot against its specification.

Go strings are modelled as `List Char`; all string constants involved are
ASCII, where Go's byte-level operations and rune-level operations agree.
Every definition is a direct translation of the corresponding Go function,
named after it where possible:

  * `internal/rss/parser.go`: `cleanHTML`, `parseItem`, `fetchMultipleFeeds`
  * `internal/llm/selector.go`: `extractJSON`
  * `internal/scheduler/scheduler.go`: `parseCron`, `nextRunTime`,
    `startAtFireTime` (the delay logic of `StartAt`), `scheduledRunTime`
    (the run instants produced by `Start`'s ticker loop)
  * `internal/slack` poster: `formatMessageWithHolidays`,
    `postEventsWithHolidays`
  * `cmd/bot/main.go`: `filterFunHolidays`, `selectHolidayTitles`
-/

namespace SlackHistory

/-- Go strings, modelled as lists of characters. -/
abbrev Str := List Char

/-- Whether `p` is a prefix of `s` (Go `strings.HasPrefix` / the prefix test
performed at each position by `strings.Index`, `strings.Contains`,
`strings.Replace`). -/
def isPre : Str → Str → Bool
  | [], _ => true
  | _ :: _, [] => false
  | p :: ps, c :: cs => p == c && isPre ps cs

/-- Go `strings.Contains s pat` / `bytes.Contains`. -/
def containsSub (pat : Str) : Str → Bool
  | [] => pat.isEmpty
  | c :: cs => isPre pat (c :: cs) || containsSub pat cs

/-- Index of the first occurrence of the character `ch` in a string, as used
by `strings.Index(s, "<")` and `strings.Index(s, ">")` in `cleanHTML`
(one-character patterns). `none` models Go's `-1`. -/
def indexOfCh (ch : Char) : Str → Option Nat
  | [] => none
  | c :: cs => if c == ch then some 0 else (indexOfCh ch cs).map (· + 1)

/-- Index of the first occurrence of the substring `pat`, as used by
`bytes.Index` in `extractJSON`. `none` models Go's `-1`. -/
def indexOfSub (pat : Str) : Str → Option Nat
  | [] => if pat.isEmpty then some 0 else none
  | c :: cs => if isPre pat (c :: cs) then some 0 else (indexOfSub pat cs).map (· + 1)

/-- Go `strings.ReplaceAll pat rep s`: scan left to right, replacing
non-overlapping occurrences of `pat`, resuming after the replacement.
(Go treats an empty `pat` specially; every pattern used by the program is
non-empty, and for non-empty patterns this is exactly Go's behaviour.) -/
def replaceAll (pat rep : Str) : Str → Str
  | [] => []
  | c :: cs =>
    if isPre pat (c :: cs) then rep ++ replaceAll pat rep (cs.drop (pat.length - 1))
    else c :: replaceAll pat rep cs
termination_by s => s.length
decreasing_by
  · simp only [List.length_drop, List.length_cons]; omega
  · simp

/-- Go `unicode.IsSpace`, the whitespace predicate used by
`strings.TrimSpace`. -/
def unicodeIsSpace (c : Char) : Bool :=
  c == ' ' || c == '\t' || c == '\n' || c.val == 11 || c.val == 12 || c == '\r' ||
  c.val == 0x85 || c.val == 0xA0 || c.val == 0x1680 ||
  (0x2000 ≤ c.val && c.val ≤ 0x200A) ||
  c.val == 0x2028 || c.val == 0x2029 || c.val == 0x202F || c.val == 0x205F || c.val == 0x3000

/-- Left half of Go `strings.TrimSpace`. -/
def trimLeft (s : Str) : Str := s.dropWhile unicodeIsSpace

/-- Go `strings.TrimSpace`: drop Unicode whitespace from both ends. -/
def trimSpace (s : Str) : Str :=
  ((trimLeft s).reverse.dropWhile unicodeIsSpace).reverse

/-- Drop characters up to and including the first `'>'`; `none` when no
`'>'` remains (Go: `strings.Index(s[start:], ">") == -1`). This is the
per-iteration effect of `cleanHTML`'s tag-removal loop on the part of the
string after a `'<'`. -/
def dropThroughGt : Str → Option Str
  | [] => none
  | c :: cs => if c == '>' then some cs else dropThroughGt cs

theorem dropThroughGt_length {cs rest : Str} (h : dropThroughGt cs = some rest) :
    rest.length < cs.length := by
  induction cs with
  | nil => simp [dropThroughGt] at h
  | cons c cs ih =>
    by_cases hc : c = '>'
    · simp [dropThroughGt, hc] at h
      subst h
      simp
    · simp [dropThroughGt, hc] at h
      exact Nat.lt_succ_of_lt (ih h)

/-- Structural form of `cleanHTML`'s tag-removal loop: keep characters
until a `'<'`; at a `'<'`, if a `'>'` follows, delete the bracketed
segment and continue, otherwise stop (the Go loop `break`s, leaving the
rest of the string untouched). `stripTagsLoop` below is the literal
translation of the Go loop; the equivalence of the two is proved in
`stripTagsLoop_eq_removeTags`. -/
def removeTags : Str → Str
  | [] => []
  | c :: cs =>
    if c == '<' then
      match h : dropThroughGt cs with
      | none => c :: cs
      | some rest => removeTags rest
    else c :: removeTags cs
termination_by s => s.length
decreasing_by
  · exact Nat.lt_succ_of_lt (dropThroughGt_length h)
  · simp

theorem indexOfCh_lt_length {ch : Char} {s : Str} {i : Nat}
    (h : indexOfCh ch s = some i) : i < s.length := by
  induction s generalizing i with
  | nil => simp [indexOfCh] at h
  | cons c cs ih =>
    by_cases hc : c = ch
    · simp [indexOfCh, hc] at h
      simp only [List.length_cons]
      omega
    · simp [indexOfCh, hc] at h
      obtain ⟨j, hj, rfl⟩ := h
      simpa using ih hj

/-- Literal translation of the tag-removal loop in `cleanHTML`
(`internal/rss/parser.go` lines 160-171):
```
for {
    start := strings.Index(s, "<")
    if start == -1 { break }
    end := strings.Index(s[start:], ">")
    if end == -1 { break }
    s = s[:start] + s[start+end+1:]
}
``` -/
def stripTagsLoop (s : Str) : Str :=
  match h1 : indexOfCh '<' s with
  | none => s
  | some start =>
    match h2 : indexOfCh '>' (s.drop start) with
    | none => s
    | some e => stripTagsLoop (s.take start ++ s.drop (start + e + 1))
termination_by s.length
decreasing_by
  have hs := indexOfCh_lt_length h1
  simp only [List.length_append, List.length_take, List.length_drop]
  omega

theorem isPre_length {p s : Str} (h : isPre p s = true) : p.length ≤ s.length := by
  induction p generalizing s with
  | nil => simp
  | cons a p ih =>
    cases s with
    | nil => simp [isPre] at h
    | cons c cs =>
      simp only [isPre, Bool.and_eq_true] at h
      simpa using ih h.2

theorem replaceAll_length_le {pat rep : Str} (hle : rep.length ≤ pat.length) :
    ∀ s : Str, (replaceAll pat rep s).length ≤ s.length := by
  intro s
  induction s using replaceAll.induct pat rep with
  | case1 => simp [replaceAll]
  | case2 c cs hp ih =>
    have hpl := isPre_length hp
    rw [replaceAll, if_pos hp]
    simp only [List.length_append, List.length_cons] at *
    simp only [List.length_drop] at ih
    omega
  | case3 c cs hp ih =>
    rw [replaceAll, if_neg hp]
    simpa using Nat.succ_le_succ ih

theorem replaceAll_length_lt {pat rep : Str} (hne : pat ≠ []) (hlt : rep.length < pat.length) :
    ∀ s : Str, containsSub pat s = true → (replaceAll pat rep s).length < s.length := by
  intro s
  induction s using replaceAll.induct pat rep with
  | case1 =>
    intro hc
    simp [containsSub, List.isEmpty_iff, hne] at hc
  | case2 c cs hp ih =>
    intro _
    have hpl := isPre_length hp
    have hrec := replaceAll_length_le (Nat.le_of_lt hlt) (cs.drop (pat.length - 1))
    rw [replaceAll, if_pos hp]
    simp only [List.length_append, List.length_cons, List.length_drop] at *
    omega
  | case3 c cs hp ih =>
    intro hc
    rw [containsSub, Bool.or_eq_true] at hc
    cases hc with
    | inl h => exact absurd h hp
    | inr h =>
      rw [replaceAll, if_neg hp]
      simpa using Nat.succ_lt_succ (ih h)

/-- The pattern `"\n\n\n"` of `cleanHTML`'s newline-collapsing loop. -/
def nl3 : Str := ['\n', '\n', '\n']

/-- The replacement `"\n\n"` of `cleanHTML`'s newline-collapsing loop. -/
def nl2 : Str := ['\n', '\n']

/-- Literal translation of `cleanHTML`'s newline-collapsing loop:
`for strings.Contains(s, "\n\n\n") { s = strings.ReplaceAll(s, "\n\n\n", "\n\n") }`
(one `ReplaceAll` pass can create a fresh `"\n\n\n"`, hence the loop). -/
def collapseNewlines (s : Str) : Str :=
  if h : containsSub nl3 s then collapseNewlines (replaceAll nl3 nl2 s) else s
termination_by s.length
decreasing_by
  exact replaceAll_length_lt (by decide) (by decide) s h

/-- Go `cleanHTML` (`internal/rss/parser.go` lines 152-182): replace
`<br>`-variants and `<p>`/`</p>` by newlines, remove every remaining
complete `<...>` tag, trim whitespace from both ends, then collapse runs
of three-or-more newlines down to two. -/
def cleanHTML (s : Str) : Str :=
  let s1 := replaceAll "<br>".toList ['\n'] s
  let s2 := replaceAll "<br/>".toList ['\n'] s1
  let s3 := replaceAll "<br />".toList ['\n'] s2
  let s4 := replaceAll "<p>".toList ['\n'] s3
  let s5 := replaceAll "</p>".toList ['\n'] s4
  let s6 := stripTagsLoop s5
  let s7 := trimSpace s6
  collapseNewlines s7

example : cleanHTML "<p>Hello <strong>World</strong></p>".toList = "Hello World".toList := by
  simp [cleanHTML, replaceAll, isPre, stripTagsLoop, indexOfCh, collapseNewlines,
    containsSub, trimSpace, trimLeft, unicodeIsSpace, nl3, nl2]

example : cleanHTML "Line 1<br>Line 2<br/>Line 3".toList = "Line 1\nLine 2\nLine 3".toList := by
  simp [cleanHTML, replaceAll, isPre, stripTagsLoop, indexOfCh, collapseNewlines,
    containsSub, trimSpace, trimLeft, unicodeIsSpace, nl3, nl2]

example : cleanHTML "<div><p>Test</p><span>Content</span></div>".toList = "Test\nContent".toList := by
  simp [cleanHTML, replaceAll, isPre, stripTagsLoop, indexOfCh, collapseNewlines,
    containsSub, trimSpace, trimLeft, unicodeIsSpace, nl3, nl2]

/-- Split at the first occurrence of `sep`: Go
`strings.SplitN(s, ":", 2)` returns two parts exactly when the separator
occurs; `none` models the one-part result. -/
def splitFirst (sep : Char) : Str → Option (Str × Str)
  | [] => none
  | c :: cs =>
    if c == sep then some ([], cs)
    else (splitFirst sep cs).map (fun p => (c :: p.1, p.2))

/-- RSS `Item` (`internal/rss/parser.go`). -/
structure Item where
  title : Str
  link : Str
  description : Str
  pubDate : Str
  categories : List Str
  guid : Str
deriving Repr, DecidableEq

/-- Domain record `HistoricalEvent` (`internal/rss/parser.go`). -/
structure HistoricalEvent where
  year : Str
  title : Str
  description : Str
  category : Str
  link : Str
  rawItem : Item
deriving Repr, DecidableEq

/-- `Holiday` (`internal/rss/parser.go`). -/
structure Holiday where
  title : Str
  description : Str
  link : Str
deriving Repr, DecidableEq

/-- Go `parseItem` (`internal/rss/parser.go` lines 128-148): clean the
description, split the title at the first colon into trimmed year and
trimmed title (leaving the title untouched when there is no colon), and
take the first category when present. -/
def parseItem (item : Item) : HistoricalEvent :=
  let base : HistoricalEvent :=
    { year := [], title := item.title, description := cleanHTML item.description,
      category := [], link := item.link, rawItem := item }
  let ev := match splitFirst ':' item.title with
    | some (b, a) => { base with year := trimSpace b, title := trimSpace a }
    | none => base
  match item.categories with
  | [] => ev
  | c :: _ => { ev with category := c }

/-- The pattern `"```json"` of `extractJSON`. -/
def fenceJson : Str := ['`', '`', '`', 'j', 's', 'o', 'n']

/-- The pattern `"```"` of `extractJSON`. -/
def fence : Str := ['`', '`', '`']

/-- Go `extractJSON` (`internal/llm/selector.go` lines 207-233): if the
string contains `"```json"`, return the substring from just after it up to
the next `"```"` (falling through when no closing fence exists); otherwise
if it contains `"```"`, return the substring between the first `"```"` and
the next one; otherwise return the string unchanged. -/
def extractJSON (s : Str) : Str :=
  let branchJson : Option Str :=
    if containsSub fenceJson s then
      match indexOfSub fenceJson s with
      | some idx =>
        let start := idx + fenceJson.length
        match indexOfSub fence (s.drop start) with
        | some e => some ((s.drop start).take e)
        | none => none
      | none => none
    else none
  match branchJson with
  | some r => r
  | none =>
    let branchBare : Option Str :=
      if containsSub fence s then
        match indexOfSub fence s with
        | some idx =>
          let start := idx + fence.length
          match indexOfSub fence (s.drop start) with
          | some e => some ((s.drop start).take e)
          | none => none
        | none => none
      else none
    match branchBare with
    | some r => r
    | none => s

/-! ## Scheduler (`internal/scheduler/scheduler.go`)

`ParseCron` runs `fmt.Sscanf(cronExpr, "%d %d %s %s %s", ...)` and rejects
when `err != nil || n < 2`; since `Sscanf` reports an error whenever fewer
than its five operands are scanned, success requires all five scans.  The
scanners below model Go's `fmt` scanfing on a string: before each verb,
blanks are skipped, but in `Scanf`-mode a newline encountered while
skipping is an error ("unexpected newline"); `%d` reads an optional sign
followed by a non-empty maximal run of decimal digits; `%s` reads a
non-empty maximal run of non-space characters.  (Go additionally errors on
integers overflowing `int64`; such inputs are rejected by the model too,
by `ParseCron`'s range checks, so the end-to-end behaviour agrees.) -/

/-- The whitespace table of Go `fmt`'s scanner (`isSpace` in scan.go),
restricted to the code points it contains. -/
def scanIsSpace (c : Char) : Bool :=
  c == ' ' || c == '\t' || c == '\n' || c.val == 11 || c.val == 12 || c == '\r' ||
  c.val == 0x85 || c.val == 0xA0

/-- Skipping blanks in `Scanf` mode: consume whitespace, but fail on a
newline (`fmt`'s "unexpected newline"); `'\r'` followed by `'\n'` also
fails since the `'\r'` is skipped and the `'\n'` is then read. -/
def skipSpace : Str → Option Str
  | [] => some []
  | c :: cs =>
    if c == '\n' then none
    else if scanIsSpace c then skipSpace cs
    else some (c :: cs)

/-- Numeric value of a digit string. -/
def natOfDigits (ds : Str) : Nat :=
  ds.foldl (fun n c => 10 * n + (c.toNat - 48)) 0

/-- A maximal non-empty run of decimal digits. -/
def scanDigits (s : Str) : Option (Nat × Str) :=
  let ds := s.takeWhile Char.isDigit
  if ds.isEmpty then none else some (natOfDigits ds, s.dropWhile Char.isDigit)

/-- The `%d` verb: skip blanks, then an optionally signed decimal. -/
def scanInt (s : Str) : Option (Int × Str) :=
  match skipSpace s with
  | none => none
  | some s1 =>
    match s1 with
    | '-' :: rest => (scanDigits rest).map (fun p => (-(p.1 : Int), p.2))
    | '+' :: rest => (scanDigits rest).map (fun p => ((p.1 : Int), p.2))
    | _ => (scanDigits s1).map (fun p => ((p.1 : Int), p.2))

/-- The `%s` verb: skip blanks, then a maximal non-empty run of
non-space characters. -/
def scanTok (s : Str) : Option (Str × Str) :=
  match skipSpace s with
  | none => none
  | some s1 =>
    let t := s1.takeWhile (fun c => !scanIsSpace c)
    if t.isEmpty then none else some (t, s1.dropWhile (fun c => !scanIsSpace c))

/-- The first two `%d` scans of `ParseCron`'s `Sscanf`, yielding
`(minute, hour, rest)` — the argument order of the Go call. -/
def scanTwoInts (s : Str) : Option (Int × Int × Str) :=
  match scanInt s with
  | none => none
  | some (minute, r1) =>
    match scanInt r1 with
    | none => none
    | some (hour, r2) => some (minute, hour, r2)

/-- Go `ParseCron` (`internal/scheduler/scheduler.go` lines 105-120):
scan `"%d %d %s %s %s"`, reject on any scan failure, then range-check
hour (0-23) and minute (0-59).  Returns `(hour, minute)` like the Go
function. -/
def parseCron (s : Str) : Option (Int × Int) :=
  match scanTwoInts s with
  | none => none
  | some (minute, hour, r2) =>
    match scanTok r2 with
    | none => none
    | some (_, r3) =>
      match scanTok r3 with
      | none => none
      | some (_, r4) =>
        match scanTok r4 with
        | none => none
        | some _ =>
          if hour < 0 ∨ 23 < hour then none
          else if minute < 0 ∨ 59 < minute then none
          else some (hour, minute)

/-- Seconds per day; local civil time is modelled as a linear count of
seconds (`time.Time`'s sub-second precision does not affect any of the
comparisons involved, and no DST transition is modelled — `time.Date` and
`Add(24h)` both move along this line). -/
def secondsPerDay : Nat := 86400

/-- Go `NextRunTime` (`internal/scheduler/scheduler.go` lines 123-138):
parse the schedule, build today's occurrence of `hour:minute`, and move
to tomorrow when that instant is already strictly past (`now.After(next)`).
`now` is the current local time in seconds. -/
def nextRunTime (now : Nat) (s : Str) : Option Nat :=
  match parseCron s with
  | none => none
  | some (hour, minute) =>
    let next := now / secondsPerDay * secondsPerDay + hour.toNat * 3600 + minute.toNat * 60
    some (if next < now then next + secondsPerDay else next)

/-- The delay computed by Go `StartAt` (`internal/scheduler/scheduler.go`
lines 77-100): `delay := time.Until(firstRun); if delay < 0 { delay += 24h }`.
Times are in seconds. -/
def startAtDelay (now firstRun : Int) : Int :=
  let delay := firstRun - now
  if delay < 0 then delay + (secondsPerDay : Int) else delay

/-- The instant at which `StartAt`'s timer fires and the job first runs:
`time.NewTimer(d)` fires immediately for non-positive `d`, so the first
execution happens `max delay 0` after `now`. -/
def startAtFireTime (now firstRun : Int) : Int :=
  now + max (startAtDelay now firstRun) 0

/-- The instant of the `k`-th job execution of the scheduling loop
(`Start`, lines 30-74): the job runs as soon as `Start` is entered — i.e.
at the fire time of `StartAt`'s timer — and again at every tick of a
`time.Ticker` with period `interval`. -/
def scheduledRunTime (now firstRun interval : Int) (k : Nat) : Int :=
  startAtFireTime now firstRun + interval * k

/-- `DailyInterval` (`internal/scheduler/scheduler.go` lines 141-143),
the interval `main.go` passes to `NewScheduler` in scheduled mode. -/
def dailyInterval : Int := (secondsPerDay : Int)

/-! ## Slack poster (`internal/slack`) -/

/-- `llm.SelectedEvent` (`internal/llm/selector.go`). -/
structure SelectedEvent where
  year : Str
  title : Str
  description : Str
  category : Str
deriving Repr, DecidableEq

/-- Slack `TextObject`. -/
structure TextObject where
  type : Str
  text : Str
deriving Repr, DecidableEq

/-- Slack `Block` (the `Attachments` field of `SlackMessage` is never set
by the formatter and is omitted). -/
structure Block where
  type : Str
  text : Option TextObject
  elements : List TextObject
deriving Repr, DecidableEq

/-- Slack message payload. -/
structure SlackMessage where
  text : Str
  blocks : List Block
deriving Repr, DecidableEq

/-- A divider block. -/
def dividerBlock : Block := { type := "divider".toList, text := none, elements := [] }

/-- The section block built for one selected event:
`"*%s* • %s" (year, category)`, a blank line, `"*%s*" (title)`, a blank
line, then the description. -/
def eventSection (e : SelectedEvent) : Block :=
  let header := '*' :: e.year ++ '*' :: " • ".toList ++ e.category
  let titleText := '*' :: e.title ++ ['*']
  { type := "section".toList,
    text := some { type := "mrkdwn".toList,
                   text := header ++ '\n' :: '\n' :: titleText ++ '\n' :: '\n' :: e.description },
    elements := [] }

/-- Event sections with a divider between consecutive events but none
after the last (`if i < len(events)-1`). -/
def eventBlocks : List SelectedEvent → List Block
  | [] => []
  | [e] => [eventSection e]
  | e :: e2 :: rest => eventSection e :: dividerBlock :: eventBlocks (e2 :: rest)

/-- Go `formatMessageWithHolidays` (slack poster): header stamped with the
date, a fun-holidays section only when holidays are present, one section
per event with dividers between, and a closing context line.  `dateStr`
stands for `time.Now().Format("Monday, January 2")`. -/
def formatMessageWithHolidays (dateStr : Str) (events : List SelectedEvent)
    (holidays : List Str) : SlackMessage :=
  let headerBlocks : List Block :=
    [{ type := "header".toList,
       text := some { type := "plain_text".toList,
                      text := "📅 On This Day in History - ".toList ++ dateStr },
       elements := [] },
     dividerBlock]
  let holidayBlocks : List Block :=
    if holidays.length > 0 then
      [{ type := "section".toList,
         text := some { type := "mrkdwn".toList, text := "*🎉 Today's Fun Holidays*".toList },
         elements := [] },
       { type := "section".toList,
         text := some { type := "mrkdwn".toList,
                        text := List.intercalate ['\n'] (holidays.map (fun h => "• ".toList ++ h)) },
         elements := [] },
       dividerBlock]
    else []
  let footer : Block :=
    { type := "context".toList, text := none,
      elements := [{ type := "mrkdwn".toList,
                     text := "_Curated by AI from today's historical events_".toList }] }
  { text := [], blocks := headerBlocks ++ holidayBlocks ++ eventBlocks events ++ [footer] }

/-- Observable outcome of `PostEventsWithHolidays` up to the first I/O:
either the guard `len(events) == 0 && len(holidays) == 0` rejects the call
before anything is serialized or sent, or the formatted message is
marshalled and POSTed to the webhook. -/
inductive PostOutcome where
  | noContentError : PostOutcome
  | post (msg : SlackMessage) : PostOutcome
deriving Repr, DecidableEq

/-- Go `PostEventsWithHolidays` (slack poster lines 388-423), up to the
network: the empty-input guard precedes `formatMessageWithHolidays`,
`json.Marshal` and the HTTP POST. -/
def postEventsWithHolidays (dateStr : Str) (events : List SelectedEvent)
    (holidays : List Str) : PostOutcome :=
  if events.length == 0 && holidays.length == 0 then .noContentError
  else .post (formatMessageWithHolidays dateStr events holidays)

/-! ## Feed aggregation (`internal/rss/parser.go` lines 185-203)

`FetchAndParse` performs network I/O; it is abstracted as a function
`fetch` from a URL to either an error or that feed's event list, and
`FetchMultipleFeeds`' loop over it is modelled verbatim. -/

/-- The event accumulation of `FetchMultipleFeeds`: failed feeds are
logged and skipped, successful feeds' events are appended in feed order. -/
def collectFeeds {U E ε : Type} (fetch : U → Except ε (List E)) : List U → List E
  | [] => []
  | u :: us =>
    match fetch u with
    | .error _ => collectFeeds fetch us
    | .ok evs => evs ++ collectFeeds fetch us

/-- Go `FetchMultipleFeeds`: accumulate over all URLs, then fail exactly
when nothing was collected. -/
def fetchMultipleFeeds {U E ε : Type} (fetch : U → Except ε (List E))
    (urls : List U) : Except Str (List E) :=
  let allEvents := collectFeeds fetch urls
  if allEvents.length = 0 then .error "no events fetched from any feed".toList
  else .ok allEvents

/-! ## Holiday filtering and truncation (`cmd/bot/main.go`) -/

/-- The fixed denylist `seriousKeywords` (`cmd/bot/main.go` lines 90-97). -/
def seriousKeywords : List Str :=
  ["International", "World", "National Awareness", "Day for",
   "Memorial", "Remembrance", "Victims", "Prevention",
   "Human Rights", "Peace", "Conflict", "War", "Violence",
   "Exploitation", "Poverty", "Hunger", "Disease",
   "Awareness Week", "Awareness Month", "Solidarity",
   "Against", "United Nations", "Commemoration"].map String.toList

/-- ASCII lowering; `strings.ToLower` on the ASCII range (every denylist
keyword is ASCII, so keyword containment below is unaffected by the
non-ASCII part of Unicode case mapping). -/
def toLowerChar (c : Char) : Char :=
  if 'A' ≤ c && c ≤ 'Z' then Char.ofNat (c.toNat + 32) else c

/-- `strings.ToLower`. -/
def goToLower (s : Str) : Str := s.map toLowerChar

/-- The helper `contains` of `cmd/bot/main.go` (lines 121-124):
`len(s) >= len(substr) && (s == substr || strings.Contains(ToLower(s), ToLower(substr)))`. -/
def goContains (s substr : Str) : Bool :=
  decide (substr.length ≤ s.length) &&
    (s == substr || containsSub (goToLower substr) (goToLower s))

/-- The inner keyword loop of `filterFunHolidays` (break on first hit). -/
def anyKeywordHit (title : Str) : List Str → Bool
  | [] => false
  | k :: ks => if goContains title k then true else anyKeywordHit title ks

/-- Go `filterFunHolidays` (`cmd/bot/main.go` lines 88-118): keep, in
order, the holidays whose title matches no serious keyword. -/
def filterFunHolidays : List Holiday → List Holiday
  | [] => []
  | h :: hs =>
    if anyKeywordHit h.title seriousKeywords then filterFunHolidays hs
    else h :: filterFunHolidays hs

/-- The holiday-truncation step of `createJob` (`cmd/bot/main.go` lines
164-171): clamp the configured `MaxHolidays` to the number of filtered
holidays, then collect the titles of that many leading entries. -/
def selectHolidayTitles (maxHolidays : Int) (funHolidays : List Holiday) : List Str :=
  let maxCount := if (funHolidays.length : Int) < maxHolidays
    then (funHolidays.length : Int) else maxHolidays
  (funHolidays.take maxCount.toNat).map Holiday.title

/-- Whether a character occurs in a string (specification-side helper). -/
def hasCh (ch : Char) : Str → Bool
  | [] => false
  | c :: cs => c == ch || hasCh ch cs

/-- The sanitization invariant of `cleanHTML`'s tag removal: no `'<'` in
the string is followed (anywhere later) by a `'>'`. -/
def noTagB : Str → Bool
  | [] => true
  | c :: cs => (if c == '<' then !(hasCh '>' cs) else true) && noTagB cs

/-! ## General lemmas about the string primitives -/

theorem isPre_iff {p s : Str} : isPre p s = true ↔ ∃ r, s = p ++ r := by
  induction p generalizing s with
  | nil => simp [isPre]
  | cons a p ih =>
    cases s with
    | nil => simp [isPre]
    | cons c cs =>
      simp only [isPre, Bool.and_eq_true, beq_iff_eq, ih, List.cons_append,
        List.cons.injEq]
      constructor
      · rintro ⟨rfl, r, rfl⟩
        exact ⟨r, rfl, rfl⟩
      · rintro ⟨r, rfl, rfl⟩
        exact ⟨rfl, r, rfl⟩

theorem containsSub_iff {pat s : Str} :
    containsSub pat s = true ↔ ∃ u v, s = u ++ pat ++ v := by
  induction s with
  | nil =>
    simp only [containsSub, List.isEmpty_iff]
    constructor
    · rintro rfl
      exact ⟨[], [], rfl⟩
    · rintro ⟨u, v, h⟩
      have := congrArg List.length h
      simp at this
      exact List.length_eq_zero.mp (by omega)
  | cons c cs ih =>
    simp only [containsSub, Bool.or_eq_true, isPre_iff, ih]
    constructor
    · rintro (⟨r, h⟩ | ⟨u, v, rfl⟩)
      · exact ⟨[], r, by simpa using h⟩
      · exact ⟨c :: u, v, rfl⟩
    · rintro ⟨u, v, h⟩
      cases u with
      | nil => exact Or.inl ⟨v, by simpa using h⟩
      | cons a u =>
        simp only [List.cons_append, List.cons.injEq] at h
        exact Or.inr ⟨u, v, h.2⟩

theorem containsSub_of_isPre {pat s : Str} (h : isPre pat s = true) :
    containsSub pat s = true := by
  obtain ⟨r, rfl⟩ := isPre_iff.mp h
  exact containsSub_iff.mpr ⟨[], r, rfl⟩

theorem indexOfSub_of_isPre {pat s : Str} (hne : pat ≠ []) (h : isPre pat s = true) :
    indexOfSub pat s = some 0 := by
  cases s with
  | nil =>
    obtain ⟨r, hr⟩ := isPre_iff.mp h
    exact absurd (List.append_eq_nil.mp hr.symm).1 hne
  | cons c cs => simp [indexOfSub, h]

theorem replaceAll_of_not_contains {pat rep s : Str} (h : containsSub pat s = false) :
    replaceAll pat rep s = s := by
  induction s with
  | nil => simp [replaceAll]
  | cons c cs ih =>
    rw [containsSub] at h
    simp only [Bool.or_eq_false_iff] at h
    rw [replaceAll, if_neg (by simp [h.1]), ih h.2]

theorem replaceAll_ne_nil {pat rep s : Str} (hrep : rep ≠ []) (hs : s ≠ []) :
    replaceAll pat rep s ≠ [] := by
  cases s with
  | nil => exact absurd rfl hs
  | cons c cs =>
    rw [replaceAll]
    split
    · simp [hrep]
    · simp

theorem isPre_drop {p s : Str} (h : isPre p s = true) : s = p ++ s.drop p.length := by
  obtain ⟨r, rfl⟩ := isPre_iff.mp h
  rw [List.drop_left]

theorem hasCh_iff {ch : Char} {s : Str} :
    hasCh ch s = true ↔ ∃ u v, s = u ++ ch :: v := by
  induction s with
  | nil =>
    simp only [hasCh]
    constructor
    · intro h
      exact absurd h (by simp)
    · rintro ⟨u, v, h⟩
      exact absurd h (by simp)
  | cons c cs ih =>
    simp only [hasCh, Bool.or_eq_true, beq_iff_eq, ih]
    constructor
    · rintro (rfl | ⟨u, v, rfl⟩)
      · exact ⟨[], cs, rfl⟩
      · exact ⟨c :: u, v, rfl⟩
    · rintro ⟨u, v, h⟩
      cases u with
      | nil =>
        simp only [List.nil_append, List.cons.injEq] at h
        exact Or.inl h.1
      | cons a u =>
        simp only [List.cons_append, List.cons.injEq] at h
        exact Or.inr ⟨u, v, h.2⟩

theorem hasCh_append {ch : Char} {u v : Str} :
    hasCh ch (u ++ v) = (hasCh ch u || hasCh ch v) := by
  induction u with
  | nil => simp [hasCh]
  | cons c cs ih => simp [hasCh, ih, Bool.or_assoc]

theorem noTagB_append {u v : Str} (h : noTagB (u ++ v) = true) :
    noTagB u = true ∧ noTagB v = true := by
  induction u with
  | nil => exact ⟨rfl, h⟩
  | cons c cs ih =>
    rw [List.cons_append, noTagB, Bool.and_eq_true] at h
    obtain ⟨h1, h2⟩ := h
    obtain ⟨hu, hv⟩ := ih h2
    refine ⟨?_, hv⟩
    rw [noTagB, Bool.and_eq_true]
    refine ⟨?_, hu⟩
    split at h1
    · rw [if_pos (by assumption)]
      rw [Bool.not_eq_true', hasCh_append, Bool.or_eq_false_iff] at h1
      simp [h1.1]
    · rw [if_neg (by assumption)]

theorem noTagB_eq_false_of_decomp {u v w : Str} :
    noTagB (u ++ '<' :: (v ++ '>' :: w)) = false := by
  induction u with
  | nil =>
    rw [List.nil_append, noTagB]
    have : hasCh '>' (v ++ '>' :: w) = true := hasCh_iff.mpr ⟨v, w, rfl⟩
    simp [this]
  | cons c cs ih =>
    rw [List.cons_append, noTagB]
    simp [ih]

theorem noTagB_false_iff {s : Str} :
    noTagB s = false ↔ ∃ u v w, s = u ++ '<' :: (v ++ '>' :: w) := by
  constructor
  · intro h
    induction s with
    | nil => simp [noTagB] at h
    | cons c cs ih =>
      rw [noTagB, Bool.and_eq_false_iff] at h
      rcases h with h | h
      · split at h
        · rename_i hc
          rw [beq_iff_eq] at hc
          subst hc
          rw [Bool.not_eq_false'] at h
          obtain ⟨v, w, rfl⟩ := hasCh_iff.mp h
          exact ⟨[], v, w, rfl⟩
        · exact absurd h (by simp)
      · obtain ⟨u, v, w, rfl⟩ := ih h
        exact ⟨c :: u, v, w, rfl⟩
  · rintro ⟨u, v, w, rfl⟩
    exact noTagB_eq_false_of_decomp

theorem noTagB_iff {s : Str} :
    noTagB s = true ↔ ¬ ∃ u v w, s = u ++ '<' :: (v ++ '>' :: w) := by
  rw [← Bool.not_eq_false, not_iff_not, noTagB_false_iff]

theorem not_containsSub_of_noTagB {s q1 q2 : Str} (h : noTagB s = true) :
    containsSub ('<' :: (q1 ++ '>' :: q2)) s = false := by
  rw [Bool.eq_false_iff]
  intro hc
  obtain ⟨u, v, hs⟩ := containsSub_iff.mp hc
  rw [noTagB_iff] at h
  exact h ⟨u, q1, q2 ++ v, by simpa using hs⟩

theorem dropThroughGt_eq_none {s : Str} :
    dropThroughGt s = none ↔ hasCh '>' s = false := by
  induction s with
  | nil => simp [dropThroughGt, hasCh]
  | cons c cs ih =>
    by_cases hc : c = '>'
    · simp [dropThroughGt, hasCh, hc]
    · simp [dropThroughGt, hasCh, hc, ih]

theorem dropThroughGt_append {m r : Str} (hm : hasCh '>' m = false) :
    dropThroughGt (m ++ '>' :: r) = some r := by
  induction m with
  | nil => simp [dropThroughGt]
  | cons c cs ih =>
    rw [hasCh, Bool.or_eq_false_iff] at hm
    rw [List.cons_append, dropThroughGt, if_neg (by simp [hm.1]), ih hm.2]

theorem removeTags_nil : removeTags [] = [] := by
  simp [removeTags]

theorem removeTags_cons_ne {c : Char} {cs : Str} (hc : c ≠ '<') :
    removeTags (c :: cs) = c :: removeTags cs := by
  simp [removeTags, hc]

theorem removeTags_cons_lt_none {cs : Str} (h : dropThroughGt cs = none) :
    removeTags ('<' :: cs) = '<' :: cs := by
  simp only [removeTags, if_pos (by rfl : ('<' == '<') = true)]
  split
  · rfl
  · rename_i rest heq
    rw [h] at heq
    cases heq

theorem removeTags_cons_lt_some {cs rest : Str} (h : dropThroughGt cs = some rest) :
    removeTags ('<' :: cs) = removeTags rest := by
  simp only [removeTags, if_pos (by rfl : ('<' == '<') = true)]
  split
  · rename_i heq
    rw [h] at heq
    cases heq
  · rename_i rest' heq
    rw [h] at heq
    injection heq with heq
    rw [heq]

theorem noTagB_of_no_gt {s : Str} (h : hasCh '>' s = false) : noTagB s = true := by
  induction s with
  | nil => rfl
  | cons c cs ih =>
    rw [hasCh, Bool.or_eq_false_iff] at h
    rw [noTagB, Bool.and_eq_true]
    refine ⟨?_, ih h.2⟩
    split
    · simp [h.2]
    · rfl

theorem removeTags_append_no_lt {a x : Str} (ha : hasCh '<' a = false) :
    removeTags (a ++ x) = a ++ removeTags x := by
  induction a with
  | nil => simp
  | cons c cs ih =>
    simp only [hasCh, Bool.or_eq_false_iff, beq_eq_false_iff_ne] at ha
    rw [List.cons_append, removeTags_cons_ne ha.1, ih ha.2, List.cons_append]

theorem removeTags_of_no_lt {s : Str} (hs : hasCh '<' s = false) :
    removeTags s = s := by
  have := removeTags_append_no_lt (x := []) hs
  simpa [removeTags_nil] using this

theorem noTagB_removeTags (s : Str) : noTagB (removeTags s) = true := by
  induction s using removeTags.induct with
  | case1 => rw [removeTags_nil]; rfl
  | case2 c cs hc h =>
    rw [beq_iff_eq] at hc
    subst hc
    rw [removeTags_cons_lt_none h]
    rw [dropThroughGt_eq_none] at h
    rw [noTagB, Bool.and_eq_true]
    exact ⟨by simp [h], noTagB_of_no_gt h⟩
  | case3 c cs hc rest h ih =>
    rw [beq_iff_eq] at hc
    subst hc
    rw [removeTags_cons_lt_some h]
    exact ih
  | case4 c cs hc ih =>
    have hc' : c ≠ '<' := by simpa using hc
    rw [removeTags_cons_ne hc']
    rw [noTagB, Bool.and_eq_true]
    exact ⟨by simp [hc'], ih⟩

theorem removeTags_eq_self_of_noTagB {s : Str} (h : noTagB s = true) :
    removeTags s = s := by
  induction s with
  | nil => exact removeTags_nil
  | cons c cs ih =>
    rw [noTagB, Bool.and_eq_true] at h
    obtain ⟨h1, h2⟩ := h
    by_cases hc : c = '<'
    · subst hc
      rw [if_pos (by rfl)] at h1
      rw [Bool.not_eq_true'] at h1
      rw [removeTags_cons_lt_none (dropThroughGt_eq_none.mpr h1)]
    · rw [removeTags_cons_ne hc, ih h2]

theorem indexOfCh_eq_none {ch : Char} {s : Str} :
    indexOfCh ch s = none ↔ hasCh ch s = false := by
  induction s with
  | nil => simp [indexOfCh, hasCh]
  | cons c cs ih =>
    by_cases hc : c = ch
    · simp [indexOfCh, hasCh, hc]
    · simp [indexOfCh, hasCh, hc, ih]

theorem indexOfCh_eq_some {ch : Char} {s : Str} {i : Nat}
    (h : indexOfCh ch s = some i) :
    ∃ a b, s = a ++ ch :: b ∧ a.length = i ∧ hasCh ch a = false := by
  induction s generalizing i with
  | nil => simp [indexOfCh] at h
  | cons c cs ih =>
    by_cases hc : c = ch
    · subst hc
      rw [indexOfCh, if_pos (by simp)] at h
      injection h with h
      exact ⟨[], cs, rfl, h, rfl⟩
    · rw [indexOfCh, if_neg (by simp [hc]), Option.map_eq_some'] at h
      obtain ⟨j, hj, rfl⟩ := h
      obtain ⟨a, b, rfl, rfl, hha⟩ := ih hj
      exact ⟨c :: a, b, rfl, rfl, by simp [hasCh, hc, hha]⟩

theorem stripTagsLoop_of_none {s : Str} (h : indexOfCh '<' s = none) :
    stripTagsLoop s = s := by
  rw [stripTagsLoop]
  split
  · rfl
  · rename_i start h1
    rw [h] at h1
    cases h1

theorem stripTagsLoop_of_no_gt {s : Str} {start : Nat} (h1 : indexOfCh '<' s = some start)
    (h2 : indexOfCh '>' (s.drop start) = none) : stripTagsLoop s = s := by
  rw [stripTagsLoop]
  split
  · rfl
  · rename_i start' h
    rw [h1] at h
    injection h with h
    subst h
    split
    · rfl
    · rename_i e h
      rw [h2] at h
      cases h

theorem stripTagsLoop_of_some {s : Str} {start e : Nat} (h1 : indexOfCh '<' s = some start)
    (h2 : indexOfCh '>' (s.drop start) = some e) :
    stripTagsLoop s = stripTagsLoop (s.take start ++ s.drop (start + e + 1)) := by
  rw [stripTagsLoop]
  split
  · rename_i h
    rw [h1] at h
    cases h
  · rename_i start' h
    rw [h1] at h
    injection h with h
    subst h
    split
    · rename_i h
      rw [h2] at h
      cases h
    · rename_i e' h
      rw [h2] at h
      injection h with h
      subst h
      rfl

theorem stripTagsLoop_eq_removeTags (s : Str) : stripTagsLoop s = removeTags s := by
  induction s using stripTagsLoop.induct with
  | case1 x h1 =>
    rw [stripTagsLoop_of_none h1]
    exact (removeTags_of_no_lt (indexOfCh_eq_none.mp h1)).symm
  | case2 x start h1 h2 =>
    rw [stripTagsLoop_of_no_gt h1 h2]
    obtain ⟨a, b, rfl, rfl, ha⟩ := indexOfCh_eq_some h1
    rw [List.drop_left] at h2
    have hb : hasCh '>' ('<' :: b) = false := indexOfCh_eq_none.mp h2
    rw [hasCh, Bool.or_eq_false_iff] at hb
    rw [removeTags_append_no_lt ha,
      removeTags_cons_lt_none (dropThroughGt_eq_none.mpr hb.2)]
  | case3 x start h1 e h2 ih =>
    rw [stripTagsLoop_of_some h1 h2, ih]
    obtain ⟨a, b, rfl, rfl, ha⟩ := indexOfCh_eq_some h1
    rw [List.drop_left] at h2
    rw [indexOfCh, if_neg (by decide), Option.map_eq_some'] at h2
    obtain ⟨j, hj, rfl⟩ := h2
    obtain ⟨m, r, rfl, rfl, hm⟩ := indexOfCh_eq_some hj
    rw [List.take_left]
    have hshape : a ++ '<' :: (m ++ '>' :: r) = (a ++ '<' :: m ++ ['>']) ++ r := by simp
    have hlen : a.length + (m.length + 1) + 1 = (a ++ '<' :: m ++ ['>']).length := by
      simp
      omega
    rw [hshape, hlen, List.drop_left]
    rw [← hshape, removeTags_append_no_lt ha, removeTags_append_no_lt ha,
      removeTags_cons_lt_some (dropThroughGt_append hm)]

/-! ## Lemmas about `trimSpace` and `collapseNewlines` -/

theorem head_dropWhile_false {p : Char → Bool} {s : Str} {c : Char}
    (h : (s.dropWhile p).head? = some c) : p c = false := by
  induction s with
  | nil => simp [List.dropWhile] at h
  | cons a as ih =>
    by_cases hp : p a = true
    · rw [List.dropWhile_cons, if_pos hp] at h
      exact ih h
    · rw [List.dropWhile_cons, if_neg hp] at h
      injection h with h
      subst h
      exact Bool.eq_false_iff.mpr hp

theorem trimSpace_split (s : Str) :
    trimLeft s = trimSpace s ++ ((trimLeft s).reverse.takeWhile unicodeIsSpace).reverse := by
  rw [trimSpace]
  conv_lhs => rw [← List.reverse_reverse (trimLeft s),
    ← List.takeWhile_append_dropWhile (p := unicodeIsSpace) (l := (trimLeft s).reverse)]
  rw [List.reverse_append]

theorem trimSpace_infix (s : Str) : ∃ u w, s = u ++ (trimSpace s ++ w) := by
  refine ⟨s.takeWhile unicodeIsSpace, ((trimLeft s).reverse.takeWhile unicodeIsSpace).reverse, ?_⟩
  rw [← trimSpace_split]
  rw [trimLeft, List.takeWhile_append_dropWhile]

theorem trimSpace_head {s : Str} {c : Char} (h : (trimSpace s).head? = some c) :
    unicodeIsSpace c = false := by
  have hsplit := trimSpace_split s
  cases hts : trimSpace s with
  | nil => rw [hts] at h; cases h
  | cons a rest =>
    rw [hts] at h hsplit
    injection h with h
    have hhead : (trimLeft s).head? = some a := by rw [hsplit]; rfl
    rw [← h]
    rw [trimLeft] at hhead
    exact head_dropWhile_false hhead

theorem trimSpace_getLast {s : Str} {c : Char} (h : (trimSpace s).getLast? = some c) :
    unicodeIsSpace c = false := by
  rw [trimSpace, List.getLast?_reverse] at h
  exact head_dropWhile_false h

theorem trimSpace_eq_self {s : Str}
    (h1 : ∀ c, s.head? = some c → unicodeIsSpace c = false)
    (h2 : ∀ c, s.getLast? = some c → unicodeIsSpace c = false) :
    trimSpace s = s := by
  have hleft : trimLeft s = s := by
    cases s with
    | nil => rfl
    | cons a as =>
      rw [trimLeft, List.dropWhile_cons, if_neg (by simp [h1 a rfl])]
  rw [trimSpace, hleft]
  cases hrev : s.reverse with
  | nil =>
    have : s = [] := by simpa using congrArg List.reverse hrev
    simp [this]
  | cons a rs =>
    have ha : s.getLast? = some a := by
      rw [← List.head?_reverse, hrev]
      rfl
    have hdw : List.dropWhile unicodeIsSpace (a :: rs) = a :: rs := by
      rw [List.dropWhile_cons, if_neg (by simp [h2 a ha])]
    rw [hdw, ← hrev, List.reverse_reverse]

theorem collapseNewlines_of_contains {s : Str} (h : containsSub nl3 s = true) :
    collapseNewlines s = collapseNewlines (replaceAll nl3 nl2 s) := by
  rw [collapseNewlines, dif_pos h]

theorem collapseNewlines_of_not_contains {s : Str} (h : containsSub nl3 s = false) :
    collapseNewlines s = s := by
  rw [collapseNewlines, dif_neg (by simp [h])]

theorem collapseNewlines_no_nl3 (s : Str) :
    containsSub nl3 (collapseNewlines s) = false := by
  induction s using collapseNewlines.induct with
  | case1 s h ih =>
    rw [collapseNewlines_of_contains h]
    exact ih
  | case2 s h =>
    have h' : containsSub nl3 s = false := by
      cases hc : containsSub nl3 s with
      | false => rfl
      | true => exact absurd hc h
    rw [collapseNewlines_of_not_contains h']
    exact h'

theorem head_replaceAll_nl {s : Str} {c : Char} (h : s.head? = some c) (hc : c ≠ '\n') :
    (replaceAll nl3 nl2 s).head? = some c := by
  cases s with
  | nil => cases h
  | cons a as =>
    injection h with h
    subst h
    have hni : isPre nl3 (a :: as) = false := by
      cases hx : isPre nl3 (a :: as) with
      | false => rfl
      | true =>
        obtain ⟨r, hr⟩ := isPre_iff.mp hx
        simp only [nl3] at hr
        injection hr with h1 _
        exact absurd h1 hc
    rw [replaceAll, if_neg (by simp [hni])]
    rfl

theorem getLast_replaceAll_nl {s : Str} {c : Char} (h : s.getLast? = some c) (hc : c ≠ '\n') :
    (replaceAll nl3 nl2 s).getLast? = some c := by
  induction s using replaceAll.induct nl3 nl2 with
  | case1 => cases h
  | case2 a as hp ih =>
    have e2 : List.drop (nl3.length - 1) as = List.drop 2 as := by
      norm_num [nl3]
    rw [e2] at ih
    have hshape : a :: as = nl3 ++ as.drop 2 := by
      have := isPre_drop hp
      simpa [nl3] using this
    have hne : as.drop 2 ≠ [] := by
      intro hnil
      rw [hshape, hnil] at h
      simp [nl3] at h
      exact hc h.symm
    have hlast : (as.drop 2).getLast? = some c := by
      rw [hshape, List.getLast?_append_of_ne_nil _ hne] at h
      exact h
    rw [replaceAll, if_pos hp, e2,
      List.getLast?_append_of_ne_nil _ (replaceAll_ne_nil (by simp [nl2]) hne)]
    exact ih hlast
  | case3 a as hp ih =>
    cases has : as with
    | nil =>
      subst has
      simp only [List.getLast?_singleton] at h
      rw [replaceAll, if_neg hp]
      simpa [replaceAll] using h
    | cons b bs =>
      subst has
      rw [List.getLast?_cons_cons] at h
      rw [replaceAll, if_neg hp]
      have hne2 : replaceAll nl3 nl2 (b :: bs) ≠ [] :=
        replaceAll_ne_nil (by simp [nl2]) (by simp)
      rw [show a :: replaceAll nl3 nl2 (b :: bs) = [a] ++ replaceAll nl3 nl2 (b :: bs)
          from rfl,
        List.getLast?_append_of_ne_nil _ hne2]
      exact ih h

theorem head_collapseNewlines {s : Str} {c : Char} (h : s.head? = some c) (hc : c ≠ '\n') :
    (collapseNewlines s).head? = some c := by
  induction s using collapseNewlines.induct with
  | case1 s hcon ih =>
    rw [collapseNewlines_of_contains hcon]
    exact ih (head_replaceAll_nl h hc)
  | case2 s hcon =>
    have h' : containsSub nl3 s = false := by
      cases hx : containsSub nl3 s with
      | false => rfl
      | true => exact absurd hx hcon
    rw [collapseNewlines_of_not_contains h']
    exact h

theorem getLast_collapseNewlines {s : Str} {c : Char} (h : s.getLast? = some c)
    (hc : c ≠ '\n') : (collapseNewlines s).getLast? = some c := by
  induction s using collapseNewlines.induct with
  | case1 s hcon ih =>
    rw [collapseNewlines_of_contains hcon]
    exact ih (getLast_replaceAll_nl h hc)
  | case2 s hcon =>
    have h' : containsSub nl3 s = false := by
      cases hx : containsSub nl3 s with
      | false => rfl
      | true => exact absurd hx hcon
    rw [collapseNewlines_of_not_contains h']
    exact h

/-! ## `noTagB` is preserved by the whitespace-only rewrites -/

/-- The subsequence of angle-bracket characters of a string; `noTagB`
depends only on it (specification-side helper). -/
def angles : Str → Str
  | [] => []
  | c :: cs => if c == '<' || c == '>' then c :: angles cs else angles cs

theorem eq_false_of_not_true {b : Bool} (h : ¬ b = true) : b = false := by
  cases b with
  | false => rfl
  | true => exact absurd rfl h

theorem hasCh_gt_angles (s : Str) : hasCh '>' (angles s) = hasCh '>' s := by
  induction s with
  | nil => rfl
  | cons c cs ih =>
    by_cases hb : (c == '<' || c == '>') = true
    · rw [angles, if_pos hb, hasCh, hasCh, ih]
    · have hgt : (c == '>') = false := by
        cases hx : (c == '>') with
        | false => rfl
        | true => exact absurd (by rw [hx]; simp) hb
      rw [angles, if_neg hb, ih, hasCh, hgt, Bool.false_or]

theorem noTagB_angles (s : Str) : noTagB (angles s) = noTagB s := by
  induction s with
  | nil => rfl
  | cons c cs ih =>
    by_cases hb : (c == '<' || c == '>') = true
    · rw [angles, if_pos hb, noTagB, noTagB, hasCh_gt_angles, ih]
    · have hlt : (c == '<') = false := by
        cases hx : (c == '<') with
        | false => rfl
        | true => exact absurd (by rw [hx]; simp) hb
      rw [angles, if_neg hb, ih, noTagB, hlt]
      simp

theorem angles_append (u v : Str) : angles (u ++ v) = angles u ++ angles v := by
  induction u with
  | nil => rfl
  | cons c cs ih =>
    rw [List.cons_append, angles, angles, ih]
    split
    · rw [List.cons_append]
    · rfl

theorem angles_replaceAll_nl (s : Str) : angles (replaceAll nl3 nl2 s) = angles s := by
  induction s using replaceAll.induct nl3 nl2 with
  | case1 => simp [replaceAll]
  | case2 c cs hp ih =>
    have e2 : List.drop (nl3.length - 1) cs = List.drop 2 cs := by
      norm_num [nl3]
    rw [e2] at ih
    have hshape : c :: cs = nl3 ++ cs.drop 2 := by
      have := isPre_drop hp
      simpa [nl3] using this
    rw [replaceAll, if_pos hp, e2, angles_append, ih]
    conv_rhs => rw [hshape]
    rw [angles_append]
    have h2 : angles nl2 = [] := by decide
    have h3 : angles nl3 = [] := by decide
    rw [h2, h3]
  | case3 c cs hp ih =>
    rw [replaceAll, if_neg hp, angles, angles, ih]

theorem noTagB_replaceAll_nl (s : Str) :
    noTagB (replaceAll nl3 nl2 s) = noTagB s := by
  rw [← noTagB_angles, angles_replaceAll_nl, noTagB_angles]

theorem noTagB_collapseNewlines (s : Str) :
    noTagB (collapseNewlines s) = noTagB s := by
  induction s using collapseNewlines.induct with
  | case1 s h ih =>
    rw [collapseNewlines_of_contains h, ih, noTagB_replaceAll_nl]
  | case2 s h =>
    rw [collapseNewlines_of_not_contains (eq_false_of_not_true h)]

theorem noTagB_trimSpace {s : Str} (h : noTagB s = true) :
    noTagB (trimSpace s) = true := by
  obtain ⟨u, w, hs⟩ := trimSpace_infix s
  rw [hs] at h
  exact (noTagB_append ((noTagB_append h).2)).1

/-! ## The three invariants of `cleanHTML` output -/

theorem noTagB_cleanHTML (s : Str) : noTagB (cleanHTML s) = true := by
  simp only [cleanHTML]
  rw [noTagB_collapseNewlines]
  apply noTagB_trimSpace
  rw [stripTagsLoop_eq_removeTags]
  exact noTagB_removeTags _

theorem cleanHTML_no_nl3 (s : Str) : containsSub nl3 (cleanHTML s) = false := by
  simp only [cleanHTML]
  exact collapseNewlines_no_nl3 _

theorem trimSpace_collapse_trimSpace (u : Str) :
    trimSpace (collapseNewlines (trimSpace u)) = collapseNewlines (trimSpace u) := by
  apply trimSpace_eq_self
  · intro c hc
    cases ht : (trimSpace u).head? with
    | none =>
      have hnil : trimSpace u = [] := by
        cases h' : trimSpace u with
        | nil => rfl
        | cons a as => rw [h'] at ht; cases ht
      rw [hnil, collapseNewlines_of_not_contains (by decide)] at hc
      cases hc
    | some a =>
      have ha := trimSpace_head ht
      have han : a ≠ '\n' := by
        intro e
        rw [e] at ha
        exact absurd ha (by decide)
      have := head_collapseNewlines ht han
      rw [this] at hc
      injection hc with hc
      rw [← hc]
      exact ha
  · intro c hc
    cases ht : (trimSpace u).getLast? with
    | none =>
      have hnil : trimSpace u = [] := by
        cases h' : trimSpace u with
        | nil => rfl
        | cons a as =>
          rw [h'] at ht
          exact absurd ht (by simp)
      rw [hnil, collapseNewlines_of_not_contains (by decide)] at hc
      cases hc
    | some a =>
      have ha := trimSpace_getLast ht
      have han : a ≠ '\n' := by
        intro e
        rw [e] at ha
        exact absurd ha (by decide)
      have := getLast_collapseNewlines ht han
      rw [this] at hc
      injection hc with hc
      rw [← hc]
      exact ha

theorem trimSpace_cleanHTML (s : Str) : trimSpace (cleanHTML s) = cleanHTML s := by
  simp only [cleanHTML]
  exact trimSpace_collapse_trimSpace _

theorem cleanHTML_eq_self {t : Str} (h1 : noTagB t = true)
    (h2 : containsSub nl3 t = false) (h3 : trimSpace t = t) : cleanHTML t = t := by
  have e1 : "<br>".toList = '<' :: (['b', 'r'] ++ '>' :: []) := by decide
  have e2 : "<br/>".toList = '<' :: (['b', 'r', '/'] ++ '>' :: []) := by decide
  have e3 : "<br />".toList = '<' :: (['b', 'r', ' ', '/'] ++ '>' :: []) := by decide
  have e4 : "<p>".toList = '<' :: (['p'] ++ '>' :: []) := by decide
  have e5 : "</p>".toList = '<' :: (['/', 'p'] ++ '>' :: []) := by decide
  simp only [cleanHTML]
  have r1 : replaceAll "<br>".toList ['\n'] t = t :=
    replaceAll_of_not_contains (by rw [e1]; exact not_containsSub_of_noTagB h1)
  rw [r1]
  have r2 : replaceAll "<br/>".toList ['\n'] t = t :=
    replaceAll_of_not_contains (by rw [e2]; exact not_containsSub_of_noTagB h1)
  rw [r2]
  have r3 : replaceAll "<br />".toList ['\n'] t = t :=
    replaceAll_of_not_contains (by rw [e3]; exact not_containsSub_of_noTagB h1)
  rw [r3]
  have r4 : replaceAll "<p>".toList ['\n'] t = t :=
    replaceAll_of_not_contains (by rw [e4]; exact not_containsSub_of_noTagB h1)
  rw [r4]
  have r5 : replaceAll "</p>".toList ['\n'] t = t :=
    replaceAll_of_not_contains (by rw [e5]; exact not_containsSub_of_noTagB h1)
  rw [r5, stripTagsLoop_eq_removeTags, removeTags_eq_self_of_noTagB h1, h3,
    collapseNewlines_of_not_contains h2]

/-! ## Lemmas for `parseItem` -/

theorem splitFirst_eq_none {sep : Char} {s : Str} (h : hasCh sep s = false) :
    splitFirst sep s = none := by
  induction s with
  | nil => rfl
  | cons c cs ih =>
    rw [hasCh, Bool.or_eq_false_iff] at h
    rw [splitFirst, if_neg (by simp [h.1]), ih h.2]
    rfl

theorem splitFirst_append {sep : Char} {b a : Str} (hb : hasCh sep b = false) :
    splitFirst sep (b ++ sep :: a) = some (b, a) := by
  induction b with
  | nil => rw [List.nil_append, splitFirst, if_pos (by simp)]
  | cons c cs ih =>
    rw [hasCh, Bool.or_eq_false_iff] at hb
    rw [List.cons_append, splitFirst, if_neg (by simp [hb.1]), ih hb.2]
    rfl

/-! ## Lemmas for `extractJSON` -/

theorem isPre_cons_ne {p c : Char} {ps cs : Str} (h : ¬ p = c) :
    isPre (p :: ps) (c :: cs) = false := by
  simp [isPre, h]

theorem indexOfSub_fence_after {m t : Str} (hm : hasCh '`' m = false) :
    indexOfSub fence (m ++ (fence ++ t)) = some m.length := by
  induction m with
  | nil =>
    rw [List.nil_append]
    exact indexOfSub_of_isPre (by decide) (isPre_iff.mpr ⟨t, rfl⟩)
  | cons c cs ih =>
    rw [hasCh, Bool.or_eq_false_iff, beq_eq_false_iff_ne] at hm
    have hni : isPre fence (c :: (cs ++ (fence ++ t))) = false :=
      isPre_cons_ne (fun he => hm.1 he.symm)
    rw [List.cons_append, indexOfSub, if_neg (by simp [hni]), ih hm.2]
    rfl

/-! ## Lemmas for `ParseCron` and `NextRunTime` -/

theorem parseCron_range {s : Str} {h m : Int} (hp : parseCron s = some (h, m)) :
    0 ≤ h ∧ h ≤ 23 ∧ 0 ≤ m ∧ m ≤ 59 := by
  unfold parseCron at hp
  split at hp
  · exact absurd hp (by simp)
  · split at hp
    · exact absurd hp (by simp)
    · split at hp
      · exact absurd hp (by simp)
      · split at hp
        · exact absurd hp (by simp)
        · split at hp
          · exact absurd hp (by simp)
          · rename_i hhour
            split at hp
            · exact absurd hp (by simp)
            · rename_i hmin
              injection hp with hp
              injection hp with hp1 hp2
              subst hp1
              subst hp2
              push_neg at hhour hmin
              exact ⟨hhour.1, hhour.2, hmin.1, hmin.2⟩

theorem parseCron_of_scan_fail {s : Str} (h : scanTwoInts s = none) :
    parseCron s = none := by
  unfold parseCron
  rw [h]

theorem parseCron_of_range_fail {s : Str} {mi ho : Int} {r : Str}
    (hsc : scanTwoInts s = some (mi, ho, r))
    (hbad : ho < 0 ∨ 23 < ho ∨ mi < 0 ∨ 59 < mi) : parseCron s = none := by
  cases h3 : scanTok r with
  | none => simp [parseCron, hsc, h3]
  | some p3 =>
    obtain ⟨t3, r3⟩ := p3
    cases h4 : scanTok r3 with
    | none => simp [parseCron, hsc, h3, h4]
    | some p4 =>
      obtain ⟨t4, r4⟩ := p4
      cases h5 : scanTok r4 with
      | none => simp [parseCron, hsc, h3, h4, h5]
      | some p5 =>
        by_cases hh : ho < 0 ∨ 23 < ho
        · simp [parseCron, hsc, h3, h4, h5, hh]
        · have hm : mi < 0 ∨ 59 < mi := by omega
          simp [parseCron, hsc, h3, h4, h5, hh, hm]

theorem nextRunTime_eq_none {s : Str} (h : parseCron s = none) (now : Nat) :
    nextRunTime now s = none := by
  unfold nextRunTime
  rw [h]

/-! ## Lemmas for `FetchMultipleFeeds` -/

theorem collectFeeds_eq {U E ε : Type} (fetch : U → Except ε (List E)) (urls : List U) :
    collectFeeds fetch urls = (urls.filterMap (fun u => (fetch u).toOption)).flatten := by
  induction urls with
  | nil => rfl
  | cons u us ih =>
    cases hf : fetch u with
    | error e => simp [collectFeeds, hf, List.filterMap_cons, Except.toOption, ih]
    | ok evs => simp [collectFeeds, hf, List.filterMap_cons, Except.toOption, ih]

/-! ## Lemmas for the holiday filter -/

theorem anyKeywordHit_iff {t : Str} {ks : List Str} :
    anyKeywordHit t ks = true ↔ ∃ k ∈ ks, goContains t k = true := by
  induction ks with
  | nil => simp [anyKeywordHit]
  | cons k ks ih =>
    by_cases hk : goContains t k = true
    · simp [anyKeywordHit, hk]
    · rw [anyKeywordHit, if_neg hk, ih]
      simp only [List.mem_cons]
      constructor
      · rintro ⟨k', hk', hg⟩
        exact ⟨k', Or.inr hk', hg⟩
      · rintro ⟨k', hk' | hk', hg⟩
        · subst hk'
          exact absurd hg hk
        · exact ⟨k', hk', hg⟩

theorem goContains_iff {s sub : Str} :
    goContains s sub = true ↔ containsSub (goToLower sub) (goToLower s) = true := by
  rw [goContains]
  constructor
  · intro h
    simp only [Bool.and_eq_true, Bool.or_eq_true] at h
    rcases h.2 with heq | hcon
    · rw [beq_iff_eq] at heq
      subst heq
      exact containsSub_iff.mpr ⟨[], [], by simp⟩
    · exact hcon
  · intro h
    simp only [Bool.and_eq_true, Bool.or_eq_true]
    refine ⟨?_, Or.inr h⟩
    obtain ⟨u, v, he⟩ := containsSub_iff.mp h
    have hl := congrArg List.length he
    simp only [goToLower, List.length_map, List.length_append] at hl
    simp only [decide_eq_true_eq]
    omega

theorem filterFunHolidays_sublist (hs : List Holiday) :
    List.Sublist (filterFunHolidays hs) hs := by
  induction hs with
  | nil => exact List.Sublist.refl []
  | cons h hs ih =>
    rw [filterFunHolidays]
    split
    · exact List.Sublist.cons h ih
    · exact List.Sublist.cons₂ h ih

theorem mem_filterFunHolidays {h : Holiday} {hs : List Holiday} :
    h ∈ filterFunHolidays hs ↔
      h ∈ hs ∧ anyKeywordHit h.title seriousKeywords = false := by
  induction hs with
  | nil => simp [filterFunHolidays]
  | cons g gs ih =>
    rw [filterFunHolidays]
    by_cases hg : anyKeywordHit g.title seriousKeywords = true
    · rw [if_pos hg, ih]
      simp only [List.mem_cons]
      constructor
      · rintro ⟨hm, hf⟩
        exact ⟨Or.inr hm, hf⟩
      · rintro ⟨hm | hm, hf⟩
        · subst hm
          rw [hg] at hf
          cases hf
        · exact ⟨hm, hf⟩
    · rw [if_neg hg]
      simp only [List.mem_cons, ih]
      constructor
      · rintro (rfl | ⟨hm, hf⟩)
        · exact ⟨Or.inl rfl, eq_false_of_not_true hg⟩
        · exact ⟨Or.inr hm, hf⟩
      · rintro ⟨rfl | hm, hf⟩
        · exact Or.inl rfl
        · exact Or.inr ⟨hm, hf⟩

theorem anyKeywordHit_eq_decide (g : Holiday) :
    (!(anyKeywordHit g.title seriousKeywords)) =
      decide (∀ k ∈ seriousKeywords,
        containsSub (goToLower k) (goToLower g.title) = false) := by
  cases hx : anyKeywordHit g.title seriousKeywords with
  | true =>
    obtain ⟨k, hk, hg⟩ := anyKeywordHit_iff.mp hx
    rw [goContains_iff] at hg
    simp only [Bool.not_true]
    symm
    rw [decide_eq_false_iff_not]
    intro hall
    rw [hall k hk] at hg
    cases hg
  | false =>
    simp only [Bool.not_false]
    symm
    rw [decide_eq_true_eq]
    intro k hk
    cases hy : containsSub (goToLower k) (goToLower g.title) with
    | false => rfl
    | true =>
      have hhit : anyKeywordHit g.title seriousKeywords = true :=
        anyKeywordHit_iff.mpr ⟨k, hk, goContains_iff.mpr hy⟩
      rw [hx] at hhit
      cases hhit

theorem filterFunHolidays_eq_filter (hs : List Holiday) :
    filterFunHolidays hs = hs.filter (fun g =>
      decide (∀ k ∈ seriousKeywords,
        containsSub (goToLower k) (goToLower g.title) = false)) := by
  induction hs with
  | nil => rfl
  | cons g gs ih =>
    rw [filterFunHolidays, List.filter_cons, ← anyKeywordHit_eq_decide g]
    cases hx : anyKeywordHit g.title seriousKeywords with
    | true => simp [ih]
    | false => simp [ih]

theorem selectHolidayTitles_eq (m : Int) (fs : List Holiday) :
    selectHolidayTitles m fs = (fs.map Holiday.title).take (min m.toNat fs.length) := by
  rw [selectHolidayTitles]
  split
  · rename_i hlt
    have hmin : min m.toNat fs.length = fs.length := by omega
    have hcast : ((fs.length : Int)).toNat = fs.length := by omega
    rw [hmin, hcast, List.map_take]
  · rename_i hge
    have hmin : min m.toNat fs.length = m.toNat := by omega
    rw [hmin, List.map_take]

/-! # Claim theorems -/

/-- C1 counterexample: the schedule string `"0 9"` has two leading fields
that are valid integers (minute `0` in 0-59, hour `9` in 0-23) — its two
`%d` scans succeed — yet `ParseCron` returns an error and `NextRunTime`
fails, because `fmt.Sscanf` reports an error when the three trailing `%s`
fields are missing and `ParseCron` rejects on any scan error. -/
theorem nextRunTime_two_fields_fails :
    scanTwoInts "0 9".toList = some (0, 9, []) ∧
    parseCron "0 9".toList = none ∧
    nextRunTime 0 "0 9".toList = none :=
  ⟨by decide, by decide, by decide⟩

/-- C1 (amended): for every schedule string accepted by the full
five-field scan of `ParseCron` — two leading integer fields with minute in
0-59 and hour in 0-23 followed by three further fields — `NextRunTime`
succeeds and returns an instant whose time-of-day equals the parsed
(hour, minute), dated today when the current local time has not yet passed
that time-of-day and tomorrow otherwise. -/
theorem nextRunTime_time_of_day (now : Nat) (s : Str) (h m : Int)
    (hp : parseCron s = some (h, m)) :
    ∃ r, nextRunTime now s = some r ∧
      r % secondsPerDay = h.toNat * 3600 + m.toNat * 60 ∧
      (now ≤ now / secondsPerDay * secondsPerDay + h.toNat * 3600 + m.toNat * 60 →
        r / secondsPerDay = now / secondsPerDay) ∧
      (now / secondsPerDay * secondsPerDay + h.toNat * 3600 + m.toNat * 60 < now →
        r / secondsPerDay = now / secondsPerDay + 1) := by
  obtain ⟨h0, h23, m0, m59⟩ := parseCron_range hp
  simp only [nextRunTime, hp, secondsPerDay]
  refine ⟨_, rfl, ?_, ?_, ?_⟩
  · split <;> omega
  · intro hle
    split <;> omega
  · intro hlt
    split <;> omega

/-- C1 witness: a valid five-field schedule at a concrete current time. -/
theorem nextRunTime_time_of_day_witness :
    ∃ r, nextRunTime 3600 "0 9 * * *".toList = some r ∧
      r % secondsPerDay = (9 : Int).toNat * 3600 + (0 : Int).toNat * 60 ∧
      (3600 ≤ 3600 / secondsPerDay * secondsPerDay + (9 : Int).toNat * 3600
          + (0 : Int).toNat * 60 →
        r / secondsPerDay = 3600 / secondsPerDay) ∧
      (3600 / secondsPerDay * secondsPerDay + (9 : Int).toNat * 3600
          + (0 : Int).toNat * 60 < 3600 →
        r / secondsPerDay = 3600 / secondsPerDay + 1) :=
  nextRunTime_time_of_day 3600 ("0 9 * * *".toList) 9 0 (by decide)

/-- C2 counterexample: with the first-run instant 3600 seconds in the past
(`now = 3600`, `firstRun = 0`), `StartAt` computes
`delay = -3600 + 86400 = 82800` and the first execution happens at 86400 —
the same time of day on the next day — not immediately. -/
theorem startAt_past_not_immediate :
    startAtDelay 3600 0 = 82800 ∧
    startAtFireTime 3600 0 = 86400 ∧
    startAtFireTime 3600 0 ≠ 3600 :=
  ⟨by decide, by decide, by decide⟩

/-- C2 (amended): in scheduled mode, when `StartAt` is given a first-run
instant in the past by less than 24 hours, the scheduler waits until that
instant plus 24 hours (the same time of day the next day) before the first
execution; an instant 24 or more hours past fires immediately; a future
instant is waited for exactly; thereafter the job repeats on the fixed
24-hour cadence of `DailyInterval`. -/
theorem startAt_first_run_schedule (now firstRun : Int) :
    (now ≤ firstRun → startAtFireTime now firstRun = firstRun) ∧
    (firstRun < now → now - firstRun < (secondsPerDay : Int) →
      startAtFireTime now firstRun = firstRun + (secondsPerDay : Int)) ∧
    ((secondsPerDay : Int) ≤ now - firstRun → startAtFireTime now firstRun = now) ∧
    (∀ k : Nat, scheduledRunTime now firstRun dailyInterval k
      = startAtFireTime now firstRun + (secondsPerDay : Int) * (k : Int)) := by
  refine ⟨?_, ?_, ?_, fun k => rfl⟩
  · intro h1
    simp only [startAtFireTime, startAtDelay, secondsPerDay]
    split <;> omega
  · intro h1 h2
    simp only [secondsPerDay] at h2
    simp only [startAtFireTime, startAtDelay, secondsPerDay]
    split <;> omega
  · intro h1
    simp only [secondsPerDay] at h1
    simp only [startAtFireTime, startAtDelay, secondsPerDay]
    split <;> omega

/-- C2 witness: the three delay regimes and the cadence at concrete
instants. -/
theorem startAt_first_run_schedule_witness :
    startAtFireTime 0 50 = 50 ∧
    startAtFireTime 100 50 = 50 + (secondsPerDay : Int) ∧
    startAtFireTime 200000 50 = 200000 ∧
    scheduledRunTime 0 50 dailyInterval 2
      = startAtFireTime 0 50 + (secondsPerDay : Int) * ((2 : Nat) : Int) :=
  ⟨(startAt_first_run_schedule 0 50).1 (by decide),
   (startAt_first_run_schedule 100 50).2.1 (by decide) (by decide),
   (startAt_first_run_schedule 200000 50).2.2.1 (by decide),
   (startAt_first_run_schedule 0 50).2.2.2 2⟩

/-- C3: every schedule string whose two leading integer scans fail, or
whose parsed hour is outside 0-23, or whose parsed minute is outside 0-59,
is rejected by `ParseCron`, and `NextRunTime` therefore fails on it too. -/
theorem parseCron_invalid_rejected :
    (∀ s : Str, scanTwoInts s = none → parseCron s = none) ∧
    (∀ (s : Str) (mi ho : Int) (r : Str), scanTwoInts s = some (mi, ho, r) →
      (ho < 0 ∨ 23 < ho ∨ mi < 0 ∨ 59 < mi) → parseCron s = none) ∧
    (∀ (now : Nat) (s : Str), parseCron s = none → nextRunTime now s = none) :=
  ⟨fun _ h => parseCron_of_scan_fail h,
   fun _ _ _ _ hsc hbad => parseCron_of_range_fail hsc hbad,
   fun now _ h => nextRunTime_eq_none h now⟩

/-- C3 witness: a malformed string, an out-of-range hour, and an
out-of-range minute. -/
theorem parseCron_invalid_rejected_witness :
    parseCron "invalid".toList = none ∧
    parseCron "0 25 * * *".toList = none ∧
    nextRunTime 0 "60 9 * * *".toList = none := by
  have h := parseCron_invalid_rejected
  exact ⟨h.1 "invalid".toList (by decide),
    h.2.1 "0 25 * * *".toList 0 25 (" * * *".toList) (by decide) (by decide),
    h.2.2 0 "60 9 * * *".toList
      (h.2.1 "60 9 * * *".toList 60 9 (" * * *".toList) (by decide) (by decide))⟩

/-- C4: `cleanHTML` is idempotent — cleaning an already-cleaned string
returns it unchanged. -/
theorem cleanHTML_idempotent (s : Str) : cleanHTML (cleanHTML s) = cleanHTML s :=
  cleanHTML_eq_self (noTagB_cleanHTML s) (cleanHTML_no_nl3 s) (trimSpace_cleanHTML s)

/-- C4 witness at a concrete input. -/
theorem cleanHTML_idempotent_witness :
    cleanHTML (cleanHTML "<p>a<br>b  ".toList) = cleanHTML "<p>a<br>b  ".toList :=
  cleanHTML_idempotent ("<p>a<br>b  ".toList)

/-- C10: the output of `cleanHTML` contains no `'<'` that is followed
anywhere later by a `'>'`, contains no run of three consecutive newlines,
and carries no leading or trailing whitespace. -/
theorem cleanHTML_sanitized (s : Str) :
    (¬ ∃ u v w, cleanHTML s = u ++ '<' :: (v ++ '>' :: w)) ∧
    (¬ ∃ u v, cleanHTML s = u ++ '\n' :: '\n' :: '\n' :: v) ∧
    trimSpace (cleanHTML s) = cleanHTML s := by
  refine ⟨noTagB_iff.mp (noTagB_cleanHTML s), ?_, trimSpace_cleanHTML s⟩
  rintro ⟨u, v, hc⟩
  have hcon : containsSub nl3 (cleanHTML s) = true :=
    containsSub_iff.mpr ⟨u, v, by simpa [nl3] using hc⟩
  rw [cleanHTML_no_nl3 s] at hcon
  cases hcon

/-- C10 witness at a concrete input. -/
theorem cleanHTML_sanitized_witness :
    (¬ ∃ u v w, cleanHTML " <a href\npending".toList = u ++ '<' :: (v ++ '>' :: w)) ∧
    (¬ ∃ u v, cleanHTML " <a href\npending".toList = u ++ '\n' :: '\n' :: '\n' :: v) ∧
    trimSpace (cleanHTML " <a href\npending".toList) = cleanHTML " <a href\npending".toList :=
  cleanHTML_sanitized (" <a href\npending".toList)

/-- C7: posting with zero events and zero holidays is rejected up front:
the guard yields the error outcome before any message is formatted,
serialized, or POSTed. -/
theorem postEventsWithHolidays_empty_rejected (dateStr : Str) :
    postEventsWithHolidays dateStr [] [] = PostOutcome.noContentError ∧
    ∀ msg, postEventsWithHolidays dateStr [] [] ≠ PostOutcome.post msg := by
  refine ⟨rfl, ?_⟩
  intro msg h
  simp [postEventsWithHolidays] at h

/-- C7 witness at a concrete date string. -/
theorem postEventsWithHolidays_empty_rejected_witness :
    postEventsWithHolidays "Monday, January 2".toList [] [] = PostOutcome.noContentError :=
  (postEventsWithHolidays_empty_rejected ("Monday, January 2".toList)).1

/-- C5: `parseItem` splits a title at its first colon into a trimmed year
and a trimmed title; a title without a colon yields an empty year and the
title unchanged; the first category tag, when present, becomes the
category. -/
theorem parseItem_spec (it : Item) :
    (∀ b a, it.title = b ++ ':' :: a → hasCh ':' b = false →
      (parseItem it).year = trimSpace b ∧ (parseItem it).title = trimSpace a) ∧
    (hasCh ':' it.title = false →
      (parseItem it).year = [] ∧ (parseItem it).title = it.title) ∧
    (∀ c cs, it.categories = c :: cs → (parseItem it).category = c) := by
  refine ⟨?_, ?_, ?_⟩
  · intro b a hta hb
    have hsp : splitFirst ':' it.title = some (b, a) := by
      rw [hta]
      exact splitFirst_append hb
    cases hcat : it.categories with
    | nil => simp [parseItem, hsp, hcat]
    | cons c cs => simp [parseItem, hsp, hcat]
  · intro hnc
    have hsp : splitFirst ':' it.title = none := splitFirst_eq_none hnc
    cases hcat : it.categories with
    | nil => simp [parseItem, hsp, hcat]
    | cons c cs => simp [parseItem, hsp, hcat]
  · intro c cs hcat
    cases hsp : splitFirst ':' it.title with
    | none => simp [parseItem, hsp, hcat]
    | some p =>
      obtain ⟨b, a⟩ := p
      simp [parseItem, hsp, hcat]

/-- The RSS item of the specification's worked example, used as the C5
witness input. -/
def apolloItem : Item :=
  { title := "1969: Apollo 11 lands on the Moon".toList,
    link := "https://example.com/event/1".toList,
    description := [],
    pubDate := [],
    categories := ["Science".toList, "Space".toList],
    guid := [] }

/-- C5 witness: the specification's worked example. -/
theorem parseItem_spec_witness :
    (parseItem apolloItem).year = "1969".toList ∧
    (parseItem apolloItem).title = "Apollo 11 lands on the Moon".toList ∧
    (parseItem apolloItem).category = "Science".toList := by
  have h := parseItem_spec apolloItem
  have h1 := h.1 "1969".toList (" Apollo 11 lands on the Moon".toList)
    (by decide) (by decide)
  refine ⟨?_, ?_, h.2.2 "Science".toList ["Space".toList] rfl⟩
  · rw [h1.1]
    decide
  · rw [h1.2]
    decide

/-- C6 counterexample: for input wrapped in a code fence carrying the
language tag `go`, `extractJSON` returns the language tag together with
the content — not the interior between the opening fence (with its tag)
and the closing fence, which is `"\ncode\n"`.  Only the tag `json` is
stripped by the implementation. -/
theorem extractJSON_language_tag_counterexample :
    extractJSON "```go\ncode\n```".toList = "go\ncode\n".toList ∧
    "go\ncode\n".toList ≠ "\ncode\n".toList :=
  ⟨by decide, by decide⟩

/-- C6 (amended): for input opening with a `"```json"` fence whose
interior contains no backtick, `extractJSON` returns exactly the interior
(between the tagged opening fence and the next closing fence); for input
opening with a bare `"```"` fence, interior backtick-free, provided the
whole input contains no `"```json"` fence, it returns exactly the
interior; a fence with any other language tag leaves that tag inside the
returned substring; and input containing no fence at all is returned
unchanged. -/
theorem extractJSON_spec :
    (∀ m t : Str, hasCh '`' m = false →
      extractJSON (fenceJson ++ (m ++ (fence ++ t))) = m) ∧
    (∀ m t : Str, hasCh '`' m = false →
      containsSub fenceJson (fence ++ (m ++ (fence ++ t))) = false →
      extractJSON (fence ++ (m ++ (fence ++ t))) = m) ∧
    (∀ s : Str, containsSub fence s = false → extractJSON s = s) := by
  refine ⟨?_, ?_, ?_⟩
  · intro m t hm
    have h1 : containsSub fenceJson (fenceJson ++ (m ++ (fence ++ t))) = true :=
      containsSub_of_isPre (isPre_iff.mpr ⟨_, rfl⟩)
    have h2 : indexOfSub fenceJson (fenceJson ++ (m ++ (fence ++ t))) = some 0 :=
      indexOfSub_of_isPre (by decide) (isPre_iff.mpr ⟨_, rfl⟩)
    have h4 : indexOfSub fence (m ++ (fence ++ t)) = some m.length :=
      indexOfSub_fence_after hm
    simp [extractJSON, h1, h2, h4, List.drop_left, List.take_left]
  · intro m t hm hcj
    have hc2 : containsSub fence (fence ++ (m ++ (fence ++ t))) = true :=
      containsSub_of_isPre (isPre_iff.mpr ⟨_, rfl⟩)
    have h2 : indexOfSub fence (fence ++ (m ++ (fence ++ t))) = some 0 :=
      indexOfSub_of_isPre (by decide) (isPre_iff.mpr ⟨_, rfl⟩)
    have h4 : indexOfSub fence (m ++ (fence ++ t)) = some m.length :=
      indexOfSub_fence_after hm
    simp [extractJSON, hcj, hc2, h2, h4, List.drop_left, List.take_left]
  · intro s hns
    have hnj : containsSub fenceJson s = false := by
      cases hx : containsSub fenceJson s with
      | false => rfl
      | true =>
        obtain ⟨u, v, he⟩ := containsSub_iff.mp hx
        have hfence : containsSub fence s = true :=
          containsSub_iff.mpr ⟨u, 'j' :: 's' :: 'o' :: 'n' :: v,
            by simpa [fenceJson, fence] using he⟩
        rw [hns] at hfence
        cases hfence
    simp [extractJSON, hnj, hns]

/-- C6 witness: a json-tagged fence, a bare fence, and a fence-free
input. -/
theorem extractJSON_spec_witness :
    extractJSON "```jsonabc```".toList = "abc".toList ∧
    extractJSON "```xyz```".toList = "xyz".toList ∧
    extractJSON "plain".toList = "plain".toList := by
  have h := extractJSON_spec
  refine ⟨?_, ?_, h.2.2 "plain".toList (by decide)⟩
  · have e : "```jsonabc```".toList = fenceJson ++ ("abc".toList ++ (fence ++ [])) := by
      decide
    rw [e]
    exact h.1 "abc".toList [] (by decide)
  · have e : "```xyz```".toList = fence ++ ("xyz".toList ++ (fence ++ [])) := by
      decide
    rw [e]
    exact h.2.1 "xyz".toList [] (by decide) (by decide)

/-- C8: `FetchMultipleFeeds` absorbs individual feed failures; it returns
an error exactly when zero events were collected across all feeds, and
otherwise returns the concatenation of the successful feeds' events in
feed order. -/
theorem fetchMultipleFeeds_spec {U E ε : Type} (fetch : U → Except ε (List E))
    (urls : List U) :
    ((urls.filterMap (fun u => (fetch u).toOption)).flatten = [] →
      fetchMultipleFeeds fetch urls
        = Except.error "no events fetched from any feed".toList) ∧
    ((urls.filterMap (fun u => (fetch u).toOption)).flatten ≠ [] →
      fetchMultipleFeeds fetch urls
        = Except.ok ((urls.filterMap (fun u => (fetch u).toOption)).flatten)) := by
  constructor
  · intro h
    simp [fetchMultipleFeeds, collectFeeds_eq, h]
  · intro h
    simp only [fetchMultipleFeeds, collectFeeds_eq]
    rw [if_neg (fun h0 => h (List.length_eq_zero.mp h0))]

/-- C8 witness: three feeds — one failing, one returning two events, one
returning none — yield the middle feed's events. -/
theorem fetchMultipleFeeds_spec_witness :
    fetchMultipleFeeds
      (fun u : Nat => if u = 1 then (Except.ok [10, 11] : Except Nat (List Nat))
        else Except.error 0)
      [0, 1, 2] = Except.ok [10, 11] := by
  have h := (fetchMultipleFeeds_spec
    (fun u : Nat => if u = 1 then (Except.ok [10, 11] : Except Nat (List Nat))
      else Except.error 0)
    [0, 1, 2]).2 (by decide)
  have e : (([0, 1, 2].filterMap (fun u =>
      ((fun u : Nat => if u = 1 then (Except.ok [10, 11] : Except Nat (List Nat))
        else Except.error 0) u).toOption)).flatten) = [10, 11] := by decide
  rw [e] at h
  exact h

/-- C9: `filterFunHolidays` keeps exactly the holidays whose title
contains, case-insensitively, none of the serious keywords, preserving
input order; the job then takes the titles of the first
min(configured maximum, number remaining) filtered holidays. -/
theorem filterFunHolidays_spec (hs : List Holiday) :
    List.Sublist (filterFunHolidays hs) hs ∧
    filterFunHolidays hs = hs.filter (fun g =>
      decide (∀ k ∈ seriousKeywords,
        containsSub (goToLower k) (goToLower g.title) = false)) ∧
    (∀ h : Holiday, h ∈ filterFunHolidays hs ↔
      (h ∈ hs ∧ ∀ k ∈ seriousKeywords,
        containsSub (goToLower k) (goToLower h.title) = false)) ∧
    (∀ m : Int, selectHolidayTitles m (filterFunHolidays hs) =
      ((filterFunHolidays hs).map Holiday.title).take
        (min m.toNat (filterFunHolidays hs).length)) := by
  refine ⟨filterFunHolidays_sublist hs, filterFunHolidays_eq_filter hs, ?_,
    fun m => selectHolidayTitles_eq m _⟩
  intro h
  rw [mem_filterFunHolidays]
  constructor
  · rintro ⟨hm, hf⟩
    refine ⟨hm, ?_⟩
    intro k hk
    cases hx : containsSub (goToLower k) (goToLower h.title) with
    | false => rfl
    | true =>
      have : anyKeywordHit h.title seriousKeywords = true :=
        anyKeywordHit_iff.mpr ⟨k, hk, goContains_iff.mpr hx⟩
      rw [hf] at this
      cases this
  · rintro ⟨hm, hall⟩
    refine ⟨hm, ?_⟩
    cases hx : anyKeywordHit h.title seriousKeywords with
    | false => rfl
    | true =>
      obtain ⟨k, hk, hg⟩ := anyKeywordHit_iff.mp hx
      rw [goContains_iff] at hg
      rw [hall k hk] at hg
      cases hg

/-- A fun holiday, used as C9 witness input. -/
def pizzaDay : Holiday :=
  { title := "Pizza Day".toList, description := [], link := [] }

/-- A denylisted holiday (matches the keyword "Memorial"), used as C9
witness input. -/
def memorialDay : Holiday :=
  { title := "Memorial Day".toList, description := [], link := [] }

/-- C9 witness: the fun holiday survives the filter and the truncation
equation holds at a concrete maximum. -/
theorem filterFunHolidays_spec_witness :
    pizzaDay ∈ filterFunHolidays [pizzaDay, memorialDay] ∧
    selectHolidayTitles 5 (filterFunHolidays [pizzaDay, memorialDay]) =
      ((filterFunHolidays [pizzaDay, memorialDay]).map Holiday.title).take
        (min (Int.toNat 5) (filterFunHolidays [pizzaDay, memorialDay]).length) := by
  have h := filterFunHolidays_spec [pizzaDay, memorialDay]
  refine ⟨?_, h.2.2.2 5⟩
  exact (h.2.2.1 pizzaDay).mpr ⟨by decide, by decide⟩

end SlackHistory
